import Mathlib

/-!
Shallow embedding of `src/meme_keywords.py` (a static metadata extractor for
meme modules) together with proofs about the claims of its specification.

The Python source is modelled as follows:
* literal constants (`ast.Constant`) become `PyConst` (int, str, bool, None);
* the expression fragment of the Python AST that the extractor inspects
  becomes `Expr` (constants, names, list displays, attribute access, calls);
* `ast.walk`'s breadth-first traversal becomes `walk`, a queue-based
  level-order enumeration of nodes;
* `datetime(*args)` becomes `datetimeCtor`, an `Except`-valued constructor
  that validates argument types and ranges exactly as CPython's
  `datetime.datetime` does for int/bool/str/None arguments;
* fallible Python code is `Except PyErr`; the parse step is abstracted as an
  `Except String Tree` input.
-/

namespace Meme

/-- Python literal constants that can appear as `ast.Constant` values in the
declarations the extractor reads (ints, strings, booleans, `None`). -/
inductive PyConst where
  | pint : Int → PyConst
  | pstr : String → PyConst
  | pbool : Bool → PyConst
  | pnone : PyConst
deriving DecidableEq, Repr

/-- The two kinds of exception `datetime(*args)` can raise. -/
inductive PyErr where
  | typeError : PyErr
  | valueError : PyErr
deriving DecidableEq, Repr

/-- A `datetime.datetime` value: the seven integer fields. -/
structure PyDateTime where
  year : Int
  month : Int
  day : Int
  hour : Int
  minute : Int
  second : Int
  microsecond : Int
deriving DecidableEq, Repr

/-- `datetime.min`, i.e. `datetime(1, 1, 1)`. -/
def dtMin : PyDateTime := ⟨1, 1, 1, 0, 0, 0, 0⟩

/-- Conversion of a constant to a C `int` as CPython argument parsing does:
ints pass through, bools are 0/1, anything else is a `TypeError`. -/
def toIntArg : PyConst → Except PyErr Int
  | .pint n => .ok n
  | .pbool b => .ok (if b then 1 else 0)
  | _ => .error .typeError

/-- Positional argument `i` of the constructor call, with default `d`. -/
def argOr (args : List PyConst) (i : Nat) (d : Int) : Except PyErr Int :=
  match args[i]? with
  | none => .ok d
  | some c => toIntArg c

/-- The Gregorian leap-year rule used by `datetime`. -/
def isLeap (y : Int) : Bool := y % 4 == 0 && (y % 100 != 0 || y % 400 == 0)

/-- Days in a month, as `datetime` validates the `day` argument. -/
def daysInMonth (y m : Int) : Int :=
  if m = 2 then (if isLeap y then 29 else 28)
  else if m = 4 ∨ m = 6 ∨ m = 9 ∨ m = 11 then 30
  else 31

/-- Whether the eighth positional argument (`tzinfo`) is acceptable: absent
or `None` (no tzinfo object is a literal constant). -/
def tzOk : Option PyConst → Bool
  | none => true
  | some .pnone => true
  | some _ => false

/-- `datetime(*args)` on a list of literal constants: at most 8 positional
arguments (year, month, day, hour, minute, second, microsecond, tzinfo), the
first seven converted to ints (`TypeError` otherwise), the eighth only `None`
among our constants, and every field range-checked (`ValueError` otherwise). -/
def datetimeCtor (args : List PyConst) : Except PyErr PyDateTime :=
  if args.length < 3 ∨ 8 < args.length then .error .typeError
  else
    match argOr args 0 0, argOr args 1 0, argOr args 2 0, argOr args 3 0,
        argOr args 4 0, argOr args 5 0, argOr args 6 0 with
    | .ok y, .ok mo, .ok d, .ok h, .ok mi, .ok s, .ok us =>
        if tzOk args[7]? then
          if 1 ≤ y ∧ y ≤ 9999 ∧ 1 ≤ mo ∧ mo ≤ 12 ∧ 1 ≤ d ∧ d ≤ daysInMonth y mo
              ∧ 0 ≤ h ∧ h ≤ 23 ∧ 0 ≤ mi ∧ mi ≤ 59 ∧ 0 ≤ s ∧ s ≤ 59
              ∧ 0 ≤ us ∧ us ≤ 999999 then
            .ok ⟨y, mo, d, h, mi, s, us⟩
          else .error .valueError
        else .error .typeError
    | _, _, _, _, _, _, _ => .error .typeError

/-- The record the extractor builds (the `info` dict of `extract_meme_info`).
`min_images` and `min_texts` hold the raw Python value; `pnone` plays the
role of Python `None`, which is also their initial value. -/
structure Info where
  keywords : List String
  min_images : PyConst
  min_texts : PyConst
  default_texts : List String
  date_created : Option PyDateTime
deriving DecidableEq, Repr

/-- The initial `info` dict (lines 25-31 of the source). -/
def defaultInfo : Info := ⟨[], .pnone, .pnone, [], none⟩

deriving instance DecidableEq for Except

/-- Python `str()` on our constants. -/
def pyStr : PyConst → String
  | .pint n => toString n
  | .pstr s => s
  | .pbool b => if b then "True" else "False"
  | .pnone => "None"

/-- The markdown cell for the `min_images` column (line 69 of the source):
the stringified value, or the non-breaking-space placeholder when `None`. -/
def imageCountCell (info : Info) : String :=
  match info.min_images with
  | .pnone => "&nbsp;"
  | c => pyStr c

/-- The markdown cell for the `min_texts` column (line 70 of the source). -/
def textCountCell (info : Info) : String :=
  match info.min_texts with
  | .pnone => "&nbsp;"
  | c => pyStr c

/-!
The fragment of the Python expression AST the extractor inspects:
`ast.Constant`, `ast.Name`, `ast.List`, `ast.Attribute` and `ast.Call`.
`ExprList` is a list of expressions (list elements, positional arguments) and
`KwList` a list of `ast.keyword` nodes, each an (optional) argument name and a
value; the name is `none` for a `**kwargs` splat.  (Mutual types are used
instead of nested `List`s so that all recursions stay structural.)
-/
mutual

inductive Expr where
  | econst : PyConst → Expr
  | ename : String → Expr
  | elist : ExprList → Expr
  | eattr : Expr → String → Expr
  | ecall : Expr → ExprList → KwList → Expr

inductive ExprList where
  | nil : ExprList
  | cons : Expr → ExprList → ExprList

inductive KwList where
  | nil : KwList
  | cons : Option String → Expr → KwList → KwList

end

/-- The elements of an `ExprList` as an ordinary list. -/
def ExprList.toList : ExprList → List Expr
  | .nil => []
  | .cons e es => e :: es.toList

/-- The keyword arguments of a `KwList` as ordinary (name, value) pairs. -/
def KwList.toList : KwList → List (Option String × Expr)
  | .nil => []
  | .cons a v ks => (a, v) :: ks.toList

/-- A node yielded by `ast.walk`: either an expression or an `ast.keyword`
node (which wraps the value of a keyword argument). -/
inductive Node where
  | nexpr : Expr → Node
  | nkw : Option String → Expr → Node

/-- The child nodes of a node, in `ast.iter_child_nodes` field order
(for a call: function, positional arguments, then keyword nodes). -/
def Node.children : Node → List Node
  | .nexpr (.econst _) => []
  | .nexpr (.ename _) => []
  | .nexpr (.elist es) => es.toList.map Node.nexpr
  | .nexpr (.eattr v _) => [Node.nexpr v]
  | .nexpr (.ecall f args kws) =>
      Node.nexpr f :: (args.toList.map Node.nexpr ++ kws.toList.map fun k => Node.nkw k.1 k.2)
  | .nkw _ v => [Node.nexpr v]

/-!
Structural size of an expression, counting one per AST node (keyword
nodes included); an upper bound on the number of traversal levels below it.
-/
mutual

def Expr.sz : Expr → Nat
  | .econst _ => 1
  | .ename _ => 1
  | .elist es => 1 + es.sz
  | .eattr v _ => 1 + v.sz
  | .ecall f args kws => 1 + f.sz + args.sz + kws.sz

def ExprList.sz : ExprList → Nat
  | .nil => 0
  | .cons e es => e.sz + es.sz

def KwList.sz : KwList → Nat
  | .nil => 0
  | .cons _ v ks => 1 + v.sz + ks.sz

end

/-- Structural size of a node. -/
def Node.sz : Node → Nat
  | .nexpr e => e.sz
  | .nkw _ v => 1 + v.sz

/-- Total size of a queue of nodes, used as fuel for the traversal. -/
def sumSizes (ns : List Node) : Nat := (ns.map Node.sz).sum

/-- One queue-based breadth-first traversal step: emit the current level and
recurse on the concatenation of all children.  `ast.walk` visits nodes in
exactly this level order. -/
def walkAux : Nat → List Node → List Node
  | 0, _ => []
  | _ + 1, [] => []
  | fuel + 1, ns => ns ++ walkAux fuel (ns.flatMap Node.children)

/-- `ast.walk` on a queue of root nodes.  The fuel `sumSizes ns + 1` is large
enough that the traversal runs until the queue is exhausted. -/
def walk (ns : List Node) : List Node := walkAux (sumSizes ns + 1) ns

/-- `getattr(node.func, 'id', '')` (line 24 of the source): the identifier of
a bare name, and the empty string for every other expression. -/
def funcId : Expr → String
  | .ename i => i
  | _ => ""

/-- The string-literal elements of a list display, in order
(lines 34 and 40: `[elt.s for elt in kw.value.elts if isinstance(elt, ast.Str)]`). -/
def strElems (elts : List Expr) : List String :=
  elts.filterMap fun e =>
    match e with
    | .econst (.pstr s) => some s
    | _ => none

/-- The literal-constant positional arguments of a call, in order
(line 42: `[a.n for a in kw.value.args if isinstance(a, ast.Constant)]`). -/
def constArgs (args : List Expr) : List PyConst :=
  args.filterMap fun a =>
    match a with
    | .econst c => some c
    | _ => none

/-- Processing of one keyword argument of the registration call
(lines 32-44 of the source).  Every branch is total except `date_created`,
which invokes `datetimeCtor` and can therefore fail. -/
def applyKw (info : Info) (kw : Option String × Expr) : Except PyErr Info :=
  match kw with
  | (some ("keywords"), .elist elts) =>
      .ok ⟨strElems elts.toList, info.min_images, info.min_texts, info.default_texts, info.date_created⟩
  | (some ("min_images"), .econst c) =>
      .ok ⟨info.keywords, c, info.min_texts, info.default_texts, info.date_created⟩
  | (some ("min_texts"), .econst c) =>
      .ok ⟨info.keywords, info.min_images, c, info.default_texts, info.date_created⟩
  | (some ("default_texts"), .elist elts) =>
      .ok ⟨info.keywords, info.min_images, info.min_texts, strElems elts.toList, info.date_created⟩
  | (some ("date_created"), .ecall f args _) =>
      if funcId f = "datetime" then
        let cs := constArgs args.toList
        if 3 ≤ cs.length then
          (datetimeCtor cs).map fun dt =>
            ⟨info.keywords, info.min_images, info.min_texts, info.default_texts, some dt⟩
        else .ok info
      else .ok info
  | _ => .ok info

/-- The keyword-argument loop of `extract_meme_info`, starting from the
default record and stopping at the first raised exception. -/
def applyKws (kws : List (Option String × Expr)) : Except PyErr Info :=
  kws.foldlM applyKw defaultInfo

/-- Recognition of the registration call (line 24 of the source): a call
expression whose function is the bare identifier `add_meme`; returns its
keyword arguments. -/
def isRegCall : Node → Option KwList
  | .nexpr (.ecall f _ kws) => if funcId f = "add_meme" then some kws else none
  | _ => none

/-- The body of `extract_meme_info` after a successful parse (lines 23-46):
walk the tree, use the first registration call found, and return `none` when
there is none.  The tree is the list of top-level expressions. -/
def extractTree (t : List Expr) : Except PyErr (Option Info) :=
  match (walk (t.map Node.nexpr)).findSome? isRegCall with
  | some kws => (applyKws kws.toList).map some
  | none => .ok none

/-- The diagnostic printed on a parse failure (line 20 of the source). -/
def mkDiag (path err : String) : String := "❌ 解析失败 " ++ path ++ ": " ++ err

/-- `extract_meme_info` with the parse step abstracted: a parse failure is
caught, reported once to the diagnostic stream and turned into `none`
(lines 17-21); otherwise the tree is processed by `extractTree`. -/
def extract_meme_info (path : String) (parsed : Except String (List Expr)) :
    Except PyErr (Option Info) × List String :=
  match parsed with
  | .error e => (.ok none, [mkDiag path e])
  | .ok t => (extractTree t, [])

/-- One iteration of the per-module loop of `main`: an uncaught extraction
exception aborts the run, a produced record (the dict is always truthy) is
prepended to the later records, and diagnostics accumulate in order. -/
def processStep (name : String) (r : Except PyErr (Option Info) × List String)
    (rest : Except PyErr (List (String × Info) × List String)) :
    Except PyErr (List (String × Info) × List String) :=
  match r with
  | (.error pe, _) => .error pe
  | (.ok oi, ds) =>
      rest.map fun rd => ((oi.map fun i => (name, i)).toList ++ rd.1, ds ++ rd.2)

/-- The per-module loop of `main` (lines 84-98), over the list of module
names paired with the parse result of their declaration file: collects one
record per module whose extraction returns a dict, accumulates diagnostics,
and propagates an uncaught extraction exception. -/
def processModules :
    List (String × Except String (List Expr)) →
      Except PyErr (List (String × Info) × List String)
  | [] => .ok ([], [])
  | (name, src) :: rest =>
      processStep name (extract_meme_info name src) (processModules rest)

/-- The root directory of meme modules (line 5 of the source). -/
def memesDir : String := "./memes"

/-- The recognized image extensions (line 55 of the source). -/
def imageExts : List String := [".png", ".jpg", ".jpeg", ".gif", ".webp"]

/-- `str.lower()` (ASCII case folding, which covers the extension check). -/
def pyLower (s : String) : String := ⟨s.data.map Char.toLower⟩

/-- `s.endswith(t)`: `t` is a suffix of `s`. -/
def strEndsWith (s t : String) : Bool := t.data.isSuffixOf s.data

/-- `file.lower().endswith((".png", ".jpg", ".jpeg", ".gif", ".webp"))`. -/
def isImageFile (f : String) : Bool := imageExts.any fun e => strEndsWith (pyLower f) e

/-- `path.replace("\\", "/")`: both separator characters become slashes. -/
def pyReplaceBackslash (s : String) : String :=
  ⟨s.data.map fun c => if c = '\\' then '/' else c⟩

/-- `os.path.join` on a POSIX system. -/
def joinPath (a b : String) : String := a ++ "/" ++ b

/-- Strict lexicographic comparison of two character lists by codepoint,
exactly Python's string `<`. -/
def charListLt : List Char → List Char → Bool
  | [], [] => false
  | [], _ :: _ => true
  | _ :: _, [] => false
  | a :: as, b :: bs => if a < b then true else if b < a then false else charListLt as bs

/-- Python's string `<=`: `a <= b` iff not `b < a` (codepoint order is total). -/
def strLe (a b : String) : Prop := charListLt b.data a.data = false

instance (a b : String) : Decidable (strLe a b) := by
  unfold strLe; exact inferInstance

/-- The directory entries of `subdir/images`, sorted lexicographically as
Python's `sorted` does (a stable comparison sort over codepoint order). -/
def sortedEntries (entries : List String) : List String :=
  entries.insertionSort strLe

/-- `find_first_image_path` (lines 49-57 of the source).  The filesystem is
abstracted by whether `subdir/images` is a directory and by its entry list:
if it is not a directory the result is `None`, otherwise the first entry in
sorted order with a recognized image extension is joined to the directory
path and normalized to forward slashes. -/
def find_first_image_path (subdir : String) (imagesIsDir : Bool)
    (entries : List String) : Option String :=
  if imagesIsDir then
    ((sortedEntries entries).find? isImageFile).map fun f =>
      pyReplaceBackslash (joinPath (joinPath subdir "images") f)
  else none

/-- Python's `str.lstrip(chars)`: drop leading characters that belong to the
character set, not a prefix string. -/
def pyLstrip (chars : String) (s : String) : String :=
  ⟨s.data.dropWhile fun c => c ∈ chars.data⟩

/-- `image_path.lstrip("./")` (line 96 of the source). -/
def clean_path (p : String) : String := pyLstrip ("./") p

/-- The GitHub raw-content URL built on line 97 of the source. -/
def rawURL (repo p : String) : String :=
  "https://raw.githubusercontent.com/" ++ repo ++ "/master/" ++ clean_path p

/-- Comparison of two `datetime` values: lexicographic on the seven fields,
as Python compares naive datetimes. -/
def dtLe (a b : PyDateTime) : Prop :=
  a.year < b.year ∨ (a.year = b.year ∧
    (a.month < b.month ∨ (a.month = b.month ∧
      (a.day < b.day ∨ (a.day = b.day ∧
        (a.hour < b.hour ∨ (a.hour = b.hour ∧
          (a.minute < b.minute ∨ (a.minute = b.minute ∧
            (a.second < b.second ∨ (a.second = b.second ∧
              a.microsecond ≤ b.microsecond)))))))))))

instance (a b : PyDateTime) : Decidable (dtLe a b) := by
  unfold dtLe; exact inferInstance

/-- The sort key of line 101: `x[1]["date_created"] or datetime.min`. -/
def recKey (x : String × Info) : PyDateTime := x.2.date_created.getD dtMin

/-- The ordering used by `modules_info.sort(key=..., reverse=True)`:
record `a` may precede record `b` when `b`'s key is at most `a`'s key
(descending by creation date, undated records keyed at `datetime.min`). -/
def recGe (a b : String × Info) : Prop := dtLe (recKey b) (recKey a)

instance : DecidableRel recGe := fun a b => by
  unfold recGe; exact inferInstance

instance : IsTotal (String × Info) recGe :=
  ⟨fun a b => by unfold recGe dtLe; omega⟩

instance : IsTrans (String × Info) recGe :=
  ⟨fun a b c hab hbc => by
    unfold recGe dtLe at hab hbc ⊢; omega⟩

/-- The sort on line 101 of the source: a stable sort, descending by
creation date with undated records keyed at `datetime.min`. -/
def sortModules (l : List (String × Info)) : List (String × Info) :=
  l.insertionSort recGe

/-!
Structural containment of a registration call: whether an `add_meme` call
(with a bare-name function) occurs anywhere inside an expression.  This is
the specification-side notion of "a registration call is present", defined
by recursion on the tree rather than through the traversal.
-/
mutual

def Expr.hasReg : Expr → Bool
  | .econst _ => false
  | .ename _ => false
  | .elist es => es.hasReg
  | .eattr v _ => v.hasReg
  | .ecall f args kws =>
      decide (funcId f = "add_meme") || f.hasReg || args.hasReg || kws.hasReg

def ExprList.hasReg : ExprList → Bool
  | .nil => false
  | .cons e es => e.hasReg || es.hasReg

def KwList.hasReg : KwList → Bool
  | .nil => false
  | .cons _ v ks => v.hasReg || ks.hasReg

end

/-- Containment of a registration call, lifted to traversal nodes. -/
def Node.hasReg : Node → Bool
  | .nexpr e => e.hasReg
  | .nkw _ v => v.hasReg

/-- Whether a node is itself a recognized registration call. -/
def nodeIsReg (n : Node) : Bool := (isRegCall n).isSome

/-- Whether a parsed tree contains a registration call at all. -/
def treeHasReg (t : List Expr) : Bool := t.any Expr.hasReg

/-! ### Lemmas about sizes and the traversal -/

theorem any_mapList {α β : Type} (f : α → β) (p : β → Bool) (l : List α) :
    (l.map f).any p = l.any fun x => p (f x) := by
  induction l <;> simp [*]

theorem exprListSzToList : (es : ExprList) → (es.toList.map Expr.sz).sum = es.sz
  | .nil => rfl
  | .cons e es => by simp [ExprList.toList, ExprList.sz, exprListSzToList es]

theorem kwListSzToList :
    (ks : KwList) → (ks.toList.map fun k => 1 + Expr.sz k.2).sum = ks.sz
  | .nil => rfl
  | .cons a v ks => by simp [KwList.toList, KwList.sz, kwListSzToList ks]

theorem exprOneLeSz (e : Expr) : 1 ≤ e.sz := by
  cases e <;> simp only [Expr.sz] <;> omega

theorem nodeOneLeSz (n : Node) : 1 ≤ n.sz := by
  cases n with
  | nexpr e => simpa [Node.sz] using exprOneLeSz e
  | nkw a v => simp [Node.sz]

theorem sumSizes_cons (n : Node) (ns : List Node) :
    sumSizes (n :: ns) = n.sz + sumSizes ns := by
  simp [sumSizes]

theorem sumSizes_append (a b : List Node) :
    sumSizes (a ++ b) = sumSizes a + sumSizes b := by
  simp [sumSizes]

theorem sumSizes_children (n : Node) : sumSizes n.children + 1 = n.sz := by
  cases n with
  | nkw a v => simp [Node.children, sumSizes, Node.sz]; omega
  | nexpr e =>
    cases e with
    | econst c => simp [Node.children, sumSizes, Node.sz, Expr.sz]
    | ename i => simp [Node.children, sumSizes, Node.sz, Expr.sz]
    | elist es =>
      simp only [Node.children, sumSizes, List.map_map, Node.sz, Expr.sz]
      have : (Node.sz ∘ Node.nexpr) = Expr.sz := rfl
      rw [this, exprListSzToList]; omega
    | eattr v a => simp [Node.children, sumSizes, Node.sz, Expr.sz]; omega
    | ecall f args kws =>
      simp only [Node.children, sumSizes, List.map_cons, List.map_append,
        List.map_map, List.sum_cons, List.sum_append, Node.sz, Expr.sz]
      have h1 : (Node.sz ∘ Node.nexpr) = Expr.sz := rfl
      have h2 : (Node.sz ∘ fun k : Option String × Expr => Node.nkw k.1 k.2)
          = fun k : Option String × Expr => 1 + Expr.sz k.2 := rfl
      rw [h1, h2, exprListSzToList, kwListSzToList]; omega

theorem sumSizes_flatMap_children (ns : List Node) :
    sumSizes (ns.flatMap Node.children) + ns.length = sumSizes ns := by
  induction ns with
  | nil => rfl
  | cons n ns ih =>
    rw [List.flatMap_cons, sumSizes_append, sumSizes_cons, List.length_cons]
    have := sumSizes_children n
    omega

theorem Node.hasReg_nexpr (e : Expr) : (Node.nexpr e).hasReg = e.hasReg := rfl

theorem Node.hasReg_nkw (a : Option String) (v : Expr) :
    (Node.nkw a v).hasReg = v.hasReg := rfl

theorem exprListAnyHasReg : (es : ExprList) → es.toList.any Expr.hasReg = es.hasReg
  | .nil => rfl
  | .cons e es => by
      simp [ExprList.toList, ExprList.hasReg, exprListAnyHasReg es]

theorem kwListAnyHasReg :
    (ks : KwList) → (ks.toList.any fun k => Expr.hasReg k.2) = ks.hasReg
  | .nil => rfl
  | .cons a v ks => by
      simp [KwList.toList, KwList.hasReg, kwListAnyHasReg ks]

theorem hasReg_eq (n : Node) :
    n.hasReg = (nodeIsReg n || n.children.any Node.hasReg) := by
  cases n with
  | nkw a v =>
    simp [Node.hasReg, nodeIsReg, isRegCall, Node.children]
  | nexpr e =>
    cases e with
    | econst c => simp [Node.hasReg, Expr.hasReg, nodeIsReg, isRegCall, Node.children]
    | ename i => simp [Node.hasReg, Expr.hasReg, nodeIsReg, isRegCall, Node.children]
    | elist es =>
      simp [Node.hasReg, Expr.hasReg, nodeIsReg, isRegCall, Node.children,
        any_mapList, Node.hasReg_nexpr, exprListAnyHasReg]
    | eattr v a =>
      simp [Node.hasReg, Expr.hasReg, nodeIsReg, isRegCall, Node.children]
    | ecall f args kws =>
      by_cases h : funcId f = "add_meme" <;>
        simp [Node.hasReg, Expr.hasReg, nodeIsReg, isRegCall, Node.children, h,
          List.any_append, any_mapList, Node.hasReg_nexpr, Node.hasReg_nkw,
          exprListAnyHasReg, kwListAnyHasReg, Bool.or_assoc]

theorem any_hasReg_split (ns : List Node) :
    ns.any Node.hasReg
      = (ns.any nodeIsReg || ns.any fun x => x.children.any Node.hasReg) := by
  induction ns with
  | nil => rfl
  | cons n l ih =>
    rw [List.any_cons, List.any_cons, List.any_cons, hasReg_eq n, ih]
    cases nodeIsReg n <;> cases n.children.any Node.hasReg <;> simp

theorem walkAux_any :
    ∀ (fuel : Nat) (ns : List Node), sumSizes ns ≤ fuel →
      (walkAux fuel ns).any nodeIsReg = ns.any Node.hasReg := by
  intro fuel
  induction fuel with
  | zero =>
    intro ns h
    cases ns with
    | nil => rfl
    | cons n l =>
      have h1 := nodeOneLeSz n
      rw [sumSizes_cons] at h
      omega
  | succ fuel ih =>
    intro ns h
    cases ns with
    | nil => rfl
    | cons n l =>
      have hflat : sumSizes ((n :: l).flatMap Node.children) ≤ fuel := by
        have h2 := sumSizes_flatMap_children (n :: l)
        rw [List.length_cons] at h2
        omega
      show ((n :: l) ++ walkAux fuel ((n :: l).flatMap Node.children)).any nodeIsReg = _
      rw [List.any_append, ih _ hflat, List.any_flatMap]
      exact (any_hasReg_split (n :: l)).symm

theorem walk_any (ns : List Node) :
    (walk ns).any nodeIsReg = ns.any Node.hasReg :=
  walkAux_any (sumSizes ns + 1) ns (by omega)

/-! ### Lemmas about the extractor -/

/-- `Except.map` composes. -/
theorem exceptMap_map {ε α β γ : Type} (f : α → β) (g : β → γ) (x : Except ε α) :
    (x.map f).map g = x.map fun a => g (f a) := by
  cases x <;> rfl

/-- If the first top-level expression is already a registration call, the
extractor commits to it: the rest of the tree is irrelevant (in the
breadth-first order the root of the first statement comes first). -/
theorem extract_cons_reg (args : ExprList) (kws : KwList) (rest : List Expr) :
    extractTree (Expr.ecall (Expr.ename "add_meme") args kws :: rest)
      = (applyKws kws.toList).map some := rfl

/-- The extractor returns `None` exactly when the tree contains no
registration call. -/
theorem extractTree_none_iff (t : List Expr) :
    extractTree t = .ok none ↔ treeHasReg t = false := by
  have hw := walk_any (t.map Node.nexpr)
  have hmap : (t.map Node.nexpr).any Node.hasReg = treeHasReg t := by
    rw [any_mapList]; rfl
  unfold extractTree
  cases hfs : (walk (t.map Node.nexpr)).findSome? isRegCall with
  | none =>
    have hall := List.findSome?_eq_none_iff.mp hfs
    have hany : (walk (t.map Node.nexpr)).any nodeIsReg = false := by
      rw [List.any_eq_false]
      intro x hx
      simp [nodeIsReg, hall x hx]
    rw [hany, hmap] at hw
    simpa using hw.symm
  | some kws =>
    constructor
    · intro h
      exfalso
      cases hap : applyKws kws.toList <;> simp [hap, Except.map] at h
    · intro h
      exfalso
      obtain ⟨x, hx, hpx⟩ := List.exists_of_findSome?_eq_some hfs
      have hany : (walk (t.map Node.nexpr)).any nodeIsReg = true :=
        List.any_eq_true.mpr ⟨x, hx, by simp [nodeIsReg, hpx]⟩
      rw [hany, hmap, h] at hw
      simp at hw

/-- A keyword argument not named `date_created` is always processed
successfully (each such branch of the extractor is total). -/
theorem applyKw_ok_of_ne_date (info : Info) (kw : Option String × Expr)
    (h : kw.1 ≠ some ("date_created")) : ∃ i, applyKw info kw = .ok i := by
  unfold applyKw
  split
  · exact ⟨_, rfl⟩
  · exact ⟨_, rfl⟩
  · exact ⟨_, rfl⟩
  · exact ⟨_, rfl⟩
  · simp_all
  · exact ⟨_, rfl⟩

/-- A failing keyword-argument step can only come from `date_created`. -/
theorem applyKw_error_imp (info : Info) (kw : Option String × Expr) (e : PyErr)
    (h : applyKw info kw = .error e) : kw.1 = some ("date_created") := by
  unfold applyKw at h
  split at h <;> simp_all

/-- The keyword loop is total on calls without a `date_created` argument. -/
theorem foldl_kws_ok :
    ∀ (kws : List (Option String × Expr)) (info : Info),
      (∀ kw ∈ kws, kw.1 ≠ some ("date_created")) →
        ∃ i, kws.foldlM applyKw info = .ok i := by
  intro kws
  induction kws with
  | nil => exact fun info _ => ⟨info, rfl⟩
  | cons kw rest ih =>
    intro info h
    obtain ⟨i1, hi1⟩ := applyKw_ok_of_ne_date info kw (h kw (by simp))
    obtain ⟨i2, hi2⟩ := ih i1 fun k hk => h k (by simp [hk])
    refine ⟨i2, ?_⟩
    rw [List.foldlM_cons, hi1]
    simpa using hi2

/-- An error escaping the keyword loop pinpoints a `date_created` argument. -/
theorem foldl_kws_error :
    ∀ (kws : List (Option String × Expr)) (info : Info) (e : PyErr),
      kws.foldlM applyKw info = .error e →
        ∃ kw ∈ kws, kw.1 = some ("date_created") := by
  intro kws
  induction kws with
  | nil => intro info e h; simp [List.foldlM, pure, Except.pure] at h
  | cons kw rest ih =>
    intro info e h
    rw [List.foldlM_cons] at h
    cases hap : applyKw info kw with
    | error e1 =>
      exact ⟨kw, by simp, applyKw_error_imp info kw e1 hap⟩
    | ok i1 =>
      rw [hap] at h
      obtain ⟨k, hk, hkd⟩ := ih i1 e h
      exact ⟨k, by simp [hk], hkd⟩

/-! ### Lemmas about the sort -/

theorem dtLe_refl (d : PyDateTime) : dtLe d d := by
  unfold dtLe; omega

theorem sortModules_stable (l : List (String × Info)) (k : PyDateTime) :
    ((sortModules l).filter fun x => recKey x == k)
      = l.filter fun x => recKey x == k := by
  have hmem : ∀ x ∈ l.filter fun x => recKey x == k, recKey x = k := by
    intro x hx
    have := (List.mem_filter.mp hx).2
    exact beq_iff_eq.mp this
  have hpair : (l.filter fun x => recKey x == k).Pairwise recGe :=
    List.pairwise_of_forall_mem_list fun a ha b hb => by
      unfold recGe
      rw [hmem a ha, hmem b hb]
      exact dtLe_refl k
  have hsub : List.Sublist (l.filter fun x => recKey x == k) (sortModules l) :=
    List.sublist_insertionSort hpair (List.filter_sublist l)
  have hself : ((l.filter fun x => recKey x == k).filter fun x => recKey x == k)
      = l.filter fun x => recKey x == k :=
    List.filter_eq_self.mpr fun a ha => (List.mem_filter.mp ha).2
  have hsub2 := List.Sublist.filter (fun x => recKey x == k) hsub
  rw [hself] at hsub2
  have hperm := List.Perm.filter (fun x => recKey x == k)
    (List.perm_insertionSort recGe l)
  exact (List.Sublist.eq_of_length hsub2 hperm.length_eq.symm).symm

/-! ### Lemmas about the lexicographic string order -/

theorem charListLt_iff : ∀ (as bs : List Char),
    charListLt as bs = true ↔ List.Lex (· < ·) as bs := by
  intro as
  induction as with
  | nil =>
    intro bs
    cases bs with
    | nil =>
      exact iff_of_false (by simp [charListLt]) fun h => by cases h
    | cons b bs =>
      exact iff_of_true (by simp [charListLt]) List.Lex.nil
  | cons a as ih =>
    intro bs
    cases bs with
    | nil =>
      exact iff_of_false (by simp [charListLt]) fun h => by cases h
    | cons b bs =>
      unfold charListLt
      by_cases h1 : a < b
      · rw [if_pos h1]
        exact iff_of_true rfl (List.Lex.rel h1)
      · by_cases h2 : b < a
        · rw [if_neg h1, if_pos h2]
          refine iff_of_false (by simp) fun hlex => ?_
          cases hlex with
          | rel h => exact h1 h
          | cons h => exact lt_irrefl a h2
        · have hab : a = b := le_antisymm (not_lt.mp h2) (not_lt.mp h1)
          subst hab
          rw [if_neg h1, if_neg h2, ih bs]
          exact (List.Lex.cons_iff).symm

theorem charListLt_irrefl : ∀ (as : List Char), charListLt as as = false
  | [] => rfl
  | a :: as => by simp [charListLt, charListLt_irrefl as]

theorem strLe_refl (s : String) : strLe s s := charListLt_irrefl s.data

theorem strLe_iff_not_lex (a b : String) :
    strLe a b ↔ ¬ List.Lex (· < ·) b.data a.data := by
  unfold strLe
  rw [← charListLt_iff]
  cases charListLt b.data a.data <;> simp

instance : IsTotal String strLe :=
  ⟨fun a b => by
    rw [strLe_iff_not_lex, strLe_iff_not_lex]
    by_cases h : List.Lex (· < ·) b.data a.data
    · right
      intro h2
      exact asymm h h2
    · left
      exact h⟩

instance : IsTrans String strLe :=
  ⟨fun a b c hab hbc => by
    rw [strLe_iff_not_lex] at hab hbc ⊢
    intro hca
    have htri : List.Lex (· < ·) c.data b.data ∨ c.data = b.data
        ∨ List.Lex (· < ·) b.data c.data :=
      trichotomous c.data b.data
    rcases htri with hcb | hriff | hbc2
    · exact hbc hcb
    · rw [hriff] at hca
      exact hab hca
    · exact hab (IsTrans.trans _ _ _ hbc2 hca)⟩

/-- In a list sorted by `strLe`, `find?` returns a minimum among the
elements satisfying the predicate. -/
theorem find?_sorted_min (p : String → Bool) :
    ∀ (l : List String), l.Pairwise strLe → ∀ f, l.find? p = some f →
      p f = true ∧ f ∈ l ∧ ∀ g ∈ l, p g = true → strLe f g := by
  intro l
  induction l with
  | nil =>
    intro _ f h
    simp at h
  | cons a l ih =>
    intro hp f h
    by_cases ha : p a
    · rw [List.find?_cons_of_pos _ ha] at h
      have haf : a = f := by injection h
      subst haf
      refine ⟨ha, by simp, ?_⟩
      intro g hg _
      rcases List.mem_cons.mp hg with rfl | hg2
      · exact strLe_refl g
      · exact (List.pairwise_cons.mp hp).1 g hg2
    · rw [List.find?_cons_of_neg _ ha] at h
      obtain ⟨h1, h2, h3⟩ := ih (List.pairwise_cons.mp hp).2 f h
      refine ⟨h1, by simp [h2], ?_⟩
      intro g hg hpg
      rcases List.mem_cons.mp hg with rfl | hg2
      · exact absurd hpg ha
      · exact h3 g hg2 hpg

/-- Inversion of a successful preview resolution: the chosen entry is a
matching one that is lexicographically least among all matching entries. -/
theorem ffip_some_inv (sub : String) (b : Bool) (entries : List String)
    (p : String) (h : find_first_image_path sub b entries = some p) :
    b = true ∧ ∃ f, f ∈ entries ∧ isImageFile f = true
      ∧ (∀ g ∈ entries, isImageFile g = true → strLe f g)
      ∧ p = pyReplaceBackslash (joinPath (joinPath sub "images") f) := by
  unfold find_first_image_path at h
  cases b with
  | false => simp at h
  | true =>
    rw [if_pos rfl] at h
    cases hf : (sortedEntries entries).find? isImageFile with
    | none => rw [hf] at h; simp at h
    | some f =>
      rw [hf] at h
      have hsorted : (sortedEntries entries).Pairwise strLe :=
        List.sorted_insertionSort strLe entries
      obtain ⟨h1, h2, h3⟩ := find?_sorted_min isImageFile _ hsorted f hf
      refine ⟨rfl, f, (List.mem_insertionSort strLe).mp h2, h1, ?_, ?_⟩
      · intro g hg hpg
        exact h3 g ((List.mem_insertionSort strLe).mpr hg) hpg
      · simpa using h.symm

/-- The preview resolution fails exactly when there is no images directory
or no entry with a recognized extension. -/
theorem ffip_none_iff (sub : String) (b : Bool) (entries : List String) :
    find_first_image_path sub b entries = none
      ↔ (b = false ∨ ∀ f ∈ entries, isImageFile f = false) := by
  unfold find_first_image_path
  cases b with
  | false => simp
  | true =>
    rw [if_pos rfl]
    constructor
    · intro h
      right
      intro f hf
      cases hfind : (sortedEntries entries).find? isImageFile with
      | some g => rw [hfind] at h; simp at h
      | none =>
        have := List.find?_eq_none.mp hfind f ((List.mem_insertionSort strLe).mpr hf)
        simpa using this
    · intro h
      rcases h with h | h
      · exact absurd h (by simp)
      · have hfind : (sortedEntries entries).find? isImageFile = none :=
          List.find?_eq_none.mpr fun f hf => by
            simp [h f ((List.mem_insertionSort strLe).mp hf)]
        rw [hfind]
        rfl

/-! ### Lemmas about path cleaning and the module loop -/

/-- `lstrip("./")` on a string that starts with `./m` removes exactly the
two leading characters: prepending `./` back restores the original. -/
theorem clean_path_dot_slash_m (t : String)
    (h : ∃ rest, t.data = '.' :: '/' :: 'm' :: rest) :
    "./" ++ clean_path t = t := by
  obtain ⟨rest, h⟩ := h
  apply String.ext
  have hc : (clean_path t).data = 'm' :: rest := by
    show t.data.dropWhile (fun c => c ∈ ("./").data) = 'm' :: rest
    rw [h]
    have h2 : ("./").data = ['.', '/'] := rfl
    rw [h2]
    simp [List.dropWhile]
  rw [String.data_append, hc, h]
  rfl

/-- One step of the module loop on a module whose declaration file fails to
parse: no record, exactly one diagnostic, and the rest processed as before. -/
theorem processModules_cons_error (path msg : String)
    (ys : List (String × Except String (List Expr))) :
    processModules ((path, .error msg) :: ys)
      = (processModules ys).map fun rd => (rd.1, mkDiag path msg :: rd.2) := by
  cases h : processModules ys <;>
    simp [processModules, processStep, extract_meme_info, h, Except.map]

/-- A parse-failing module anywhere in the list leaves the records of all
other modules unchanged. -/
theorem processModules_error_fst (path msg : String) :
    ∀ (xs ys : List (String × Except String (List Expr))),
      (processModules (xs ++ (path, .error msg) :: ys)).map Prod.fst
        = (processModules (xs ++ ys)).map Prod.fst := by
  intro xs
  induction xs with
  | nil =>
    intro ys
    rw [List.nil_append, List.nil_append, processModules_cons_error,
      exceptMap_map]
  | cons m xs ih =>
    intro ys
    obtain ⟨name, src⟩ := m
    rw [List.cons_append, List.cons_append]
    show (processStep name (extract_meme_info name src)
        (processModules (xs ++ (path, Except.error msg) :: ys))).map Prod.fst
      = (processStep name (extract_meme_info name src)
        (processModules (xs ++ ys))).map Prod.fst
    cases hres : extract_meme_info name src with
    | mk r ds =>
      cases r with
      | error pe => rfl
      | ok oi =>
        show ((processModules (xs ++ (path, Except.error msg) :: ys)).map
            fun rd => ((oi.map fun i => (name, i)).toList ++ rd.1, ds ++ rd.2)).map Prod.fst
          = ((processModules (xs ++ ys)).map
            fun rd => ((oi.map fun i => (name, i)).toList ++ rd.1, ds ++ rd.2)).map Prod.fst
        rw [exceptMap_map, exceptMap_map]
        have hsplit : ∀ (x : Except PyErr (List (String × Info) × List String)),
            (x.map fun rd => (oi.map fun i => (name, i)).toList ++ rd.1)
              = (x.map Prod.fst).map
                  fun r => (oi.map fun i => (name, i)).toList ++ r :=
          fun x => (exceptMap_map _ _ x).symm
        show (processModules (xs ++ (path, Except.error msg) :: ys)).map
            (fun rd => (oi.map fun i => (name, i)).toList ++ rd.1)
          = (processModules (xs ++ ys)).map
            (fun rd => (oi.map fun i => (name, i)).toList ++ rd.1)
        rw [hsplit, hsplit, ih ys]

/-! ### Lemmas about the `date_created` field -/

/-- Processing a lone `date_created=datetime(...)` keyword argument: when at
least three positional constants are present, the whole constant-argument
list is handed to the datetime constructor (not just the first three). -/
theorem applyKws_date (args : ExprList) :
    applyKws [(some ("date_created"), Expr.ecall (Expr.ename "datetime") args KwList.nil)]
      = if 3 ≤ (constArgs args.toList).length
        then (datetimeCtor (constArgs args.toList)).map
          fun dt => (⟨[], .pnone, .pnone, [], some dt⟩ : Info)
        else .ok defaultInfo := by
  show (applyKw defaultInfo
      (some ("date_created"), Expr.ecall (Expr.ename "datetime") args KwList.nil)
    >>= fun i => List.foldlM applyKw i []) = _
  show ((if 3 ≤ (constArgs args.toList).length
      then (datetimeCtor (constArgs args.toList)).map
        fun dt => (⟨[], .pnone, .pnone, [], some dt⟩ : Info)
      else .ok defaultInfo) >>= fun i => List.foldlM applyKw i []) = _
  split
  · cases datetimeCtor (constArgs args.toList) <;> rfl
  · rfl

/-- A successful `datetime(*args)` call takes its year, month and day from
the first three arguments. -/
theorem datetimeCtor_fields (c0 c1 c2 : PyConst) (cs : List PyConst)
    (dt : PyDateTime) (h : datetimeCtor (c0 :: c1 :: c2 :: cs) = .ok dt) :
    toIntArg c0 = .ok dt.year ∧ toIntArg c1 = .ok dt.month
      ∧ toIntArg c2 = .ok dt.day := by
  unfold datetimeCtor at h
  split at h
  · exact Except.noConfusion h
  · split at h
    · split at h
      · split at h
        · rename_i y mo d hh mi s us hy hmo hd hhh hmi hs hus htz hranges
          have hdt : dt = ⟨y, mo, d, hh, mi, s, us⟩ := by
            injection h with h2
            exact h2.symm
          subst hdt
          have e0 : argOr (c0 :: c1 :: c2 :: cs) 0 0 = toIntArg c0 := by
            simp [argOr]
          have e1 : argOr (c0 :: c1 :: c2 :: cs) 1 0 = toIntArg c1 := by
            simp [argOr]
          have e2 : argOr (c0 :: c1 :: c2 :: cs) 2 0 = toIntArg c2 := by
            simp [argOr]
          exact ⟨e0 ▸ hy, e1 ▸ hmo, e2 ▸ hd⟩
        · exact Except.noConfusion h
      · exact Except.noConfusion h
    · exact Except.noConfusion h

/-- An extraction error always originates from a `date_created` keyword of
the registration call that was used. -/
theorem extractTree_error_imp (t : List Expr) (e : PyErr)
    (h : extractTree t = .error e) :
    ∃ kws, (walk (t.map Node.nexpr)).findSome? isRegCall = some kws
      ∧ ∃ kw ∈ kws.toList, kw.1 = some ("date_created") := by
  unfold extractTree at h
  cases hfs : (walk (t.map Node.nexpr)).findSome? isRegCall with
  | none =>
    rw [hfs] at h
    have h2 : (Except.ok none : Except PyErr (Option Info)) = .error e := h
    exact Except.noConfusion h2
  | some kws =>
    rw [hfs] at h
    have h2 : Except.map some (applyKws kws.toList) = Except.error e := h
    cases hap : applyKws kws.toList with
    | ok i => rw [hap] at h2; exact Except.noConfusion h2
    | error e1 =>
      exact ⟨kws, rfl, foldl_kws_error kws.toList defaultInfo e1 hap⟩

/-- `lstrip("./")` after the backslash normalization restores the original
path when `./` is prepended back, for any path of the program's shape
`./memes...`. -/
theorem clean_path_memes (s : String) :
    "./" ++ clean_path (pyReplaceBackslash ("./memes/" ++ s))
      = pyReplaceBackslash ("./memes/" ++ s) := by
  apply clean_path_dot_slash_m
  refine ⟨'e' :: 'm' :: 'e' :: 's' :: '/'
      :: (s.data.map fun c => if c = '\\' then '/' else c), ?_⟩
  show (("./memes/" ++ s).data.map fun c => if c = '\\' then '/' else c) = _
  rw [String.data_append]
  have h8 : ("./memes/").data = ['.', '/', 'm', 'e', 'm', 'e', 's', '/'] := rfl
  rw [h8, List.map_append]
  rfl

/-! ### The claims -/

/-- Claim C1 (amended): for a registration call whose `date_created` value
is a call to `datetime`, the field is set only when at least three
positional literal constants are present and the datetime constructor
accepts the whole constant list; the extractor hands *all* the constant
arguments to the constructor (they are not ignored): the first three give
year, month and day, the remaining ones the time fields, and an invalid
extra argument makes the extraction raise. -/
theorem C1_theorem :
    (∀ (args : ExprList) (rest : List Expr),
        extractTree (Expr.ecall (Expr.ename "add_meme") ExprList.nil
            (KwList.cons (some ("date_created"))
              (Expr.ecall (Expr.ename "datetime") args KwList.nil)
              KwList.nil) :: rest)
          = if 3 ≤ (constArgs args.toList).length
            then (datetimeCtor (constArgs args.toList)).map
              fun dt => some (⟨[], .pnone, .pnone, [], some dt⟩ : Info)
            else .ok (some defaultInfo))
    ∧ (∀ (c0 c1 c2 : PyConst) (cs : List PyConst) (dt : PyDateTime),
        datetimeCtor (c0 :: c1 :: c2 :: cs) = .ok dt →
          toIntArg c0 = .ok dt.year ∧ toIntArg c1 = .ok dt.month
            ∧ toIntArg c2 = .ok dt.day) := by
  constructor
  · intro args rest
    rw [extract_cons_reg]
    show (applyKws [(some ("date_created"),
        Expr.ecall (Expr.ename "datetime") args KwList.nil)]).map some = _
    rw [applyKws_date]
    split
    · rw [exceptMap_map]
    · rfl
  · exact datetimeCtor_fields

/-- Claim C1 counterexample: in `add_meme(date_created=datetime(2024, 1, 1, 99))`
the fourth argument is *not* ignored: it is passed to the constructor as the
hour, which raises `ValueError` instead of producing the date 2024-01-01;
and in `datetime(2024, 1, 1, 5)` the fourth argument is stored in the
resulting value, which therefore differs from `datetime(2024, 1, 1)`. -/
theorem C1_counterexample :
    extractTree [Expr.ecall (Expr.ename "add_meme") ExprList.nil
        (KwList.cons (some ("date_created"))
          (Expr.ecall (Expr.ename "datetime")
            (ExprList.cons (Expr.econst (PyConst.pint 2024))
              (ExprList.cons (Expr.econst (PyConst.pint 1))
                (ExprList.cons (Expr.econst (PyConst.pint 1))
                  (ExprList.cons (Expr.econst (PyConst.pint 99)) ExprList.nil))))
            KwList.nil)
          KwList.nil)]
      = .error .valueError
    ∧ extractTree [Expr.ecall (Expr.ename "add_meme") ExprList.nil
        (KwList.cons (some ("date_created"))
          (Expr.ecall (Expr.ename "datetime")
            (ExprList.cons (Expr.econst (PyConst.pint 2024))
              (ExprList.cons (Expr.econst (PyConst.pint 1))
                (ExprList.cons (Expr.econst (PyConst.pint 1))
                  (ExprList.cons (Expr.econst (PyConst.pint 5)) ExprList.nil))))
            KwList.nil)
          KwList.nil)]
      = .ok (some ⟨[], .pnone, .pnone, [], some ⟨2024, 1, 1, 5, 0, 0, 0⟩⟩)
    ∧ (⟨2024, 1, 1, 5, 0, 0, 0⟩ : PyDateTime) ≠ ⟨2024, 1, 1, 0, 0, 0, 0⟩ :=
  ⟨by decide, by decide, by decide⟩

/-- Witness for C1: instantiating the field characterization at
`datetime(2024, 6, 15)`. -/
theorem C1_witness :
    toIntArg (PyConst.pint 2024) = .ok (2024 : Int)
      ∧ toIntArg (PyConst.pint 6) = .ok (6 : Int)
      ∧ toIntArg (PyConst.pint 15) = .ok (15 : Int) :=
  C1_theorem.2 (PyConst.pint 2024) (PyConst.pint 6) (PyConst.pint 15) []
    ⟨2024, 6, 15, 0, 0, 0, 0⟩ (by decide)

/-- Claim C2 (amended): every per-field extraction step is total except the
`date_created` step: an extraction error can only originate from a
`date_created` keyword argument, a call without one always yields a record,
and a top-level parse failure is caught, reported and turned into `None`. -/
theorem C2_theorem :
    (∀ (kws : List (Option String × Expr)),
        (∀ kw ∈ kws, kw.1 ≠ some ("date_created")) → ∃ i, applyKws kws = .ok i)
    ∧ (∀ (kws : List (Option String × Expr)) (e : PyErr),
        applyKws kws = .error e → ∃ kw ∈ kws, kw.1 = some ("date_created"))
    ∧ (∀ (t : List Expr) (e : PyErr), extractTree t = .error e →
        ∃ kws, (walk (t.map Node.nexpr)).findSome? isRegCall = some kws
          ∧ ∃ kw ∈ kws.toList, kw.1 = some ("date_created"))
    ∧ (∀ (path msg : String),
        extract_meme_info path (.error msg) = (.ok none, [mkDiag path msg])) :=
  ⟨fun kws h => foldl_kws_ok kws defaultInfo h,
   fun kws e h => foldl_kws_error kws defaultInfo e h,
   extractTree_error_imp,
   fun _ _ => rfl⟩

/-- Claim C2 counterexample: the extractor *can* raise on a source text that
parses: `add_meme(date_created=datetime(2024, 13, 1))` parses, but the
month is out of range and the uncaught `ValueError` escapes the extractor. -/
theorem C2_counterexample :
    extractTree [Expr.ecall (Expr.ename "add_meme") ExprList.nil
        (KwList.cons (some ("date_created"))
          (Expr.ecall (Expr.ename "datetime")
            (ExprList.cons (Expr.econst (PyConst.pint 2024))
              (ExprList.cons (Expr.econst (PyConst.pint 13))
                (ExprList.cons (Expr.econst (PyConst.pint 1)) ExprList.nil)))
            KwList.nil)
          KwList.nil)]
      = .error .valueError := by
  decide

/-- Witness for C2: a call with no keyword arguments extracts successfully. -/
theorem C2_witness : ∃ i, applyKws [] = .ok i :=
  C2_theorem.1 [] (by simp)

/-- Claim C3: a `keywords` (resp. `default_texts`) keyword argument that is
a literal list contributes exactly its string-literal elements in order
(non-strings silently dropped); any other value shape leaves the field at
its default, the empty list. -/
theorem C3_theorem :
    (∀ (elts : ExprList) (rest : List Expr),
        extractTree (Expr.ecall (Expr.ename "add_meme") ExprList.nil
            (KwList.cons (some ("keywords")) (Expr.elist elts) KwList.nil) :: rest)
          = .ok (some ⟨strElems elts.toList, .pnone, .pnone, [], none⟩))
    ∧ (∀ (elts : ExprList) (rest : List Expr),
        extractTree (Expr.ecall (Expr.ename "add_meme") ExprList.nil
            (KwList.cons (some ("default_texts")) (Expr.elist elts) KwList.nil) :: rest)
          = .ok (some ⟨[], .pnone, .pnone, strElems elts.toList, none⟩))
    ∧ (∀ (v : Expr) (rest : List Expr), (∀ es, v ≠ Expr.elist es) →
        extractTree (Expr.ecall (Expr.ename "add_meme") ExprList.nil
            (KwList.cons (some ("keywords")) v KwList.nil) :: rest)
          = .ok (some defaultInfo)
        ∧ extractTree (Expr.ecall (Expr.ename "add_meme") ExprList.nil
            (KwList.cons (some ("default_texts")) v KwList.nil) :: rest)
          = .ok (some defaultInfo))
    ∧ extractTree [Expr.ecall (Expr.ename "add_meme") ExprList.nil
        (KwList.cons (some ("keywords"))
          (Expr.elist (ExprList.cons (Expr.econst (PyConst.pstr "a"))
            (ExprList.cons (Expr.econst (PyConst.pint 1))
              (ExprList.cons (Expr.econst (PyConst.pstr "b")) ExprList.nil))))
          KwList.nil)]
        = .ok (some ⟨["a", "b"], .pnone, .pnone, [], none⟩) := by
  refine ⟨fun elts rest => rfl, fun elts rest => rfl, ?_, by decide⟩
  intro v rest h
  cases v with
  | econst c => exact ⟨rfl, rfl⟩
  | ename i => exact ⟨rfl, rfl⟩
  | elist es => exact absurd rfl (h es)
  | eattr w a => exact ⟨rfl, rfl⟩
  | ecall f args kws => exact ⟨rfl, rfl⟩

/-- Witness for C3: a non-list `keywords` value leaves both fields at their
defaults. -/
theorem C3_witness :
    extractTree [Expr.ecall (Expr.ename "add_meme") ExprList.nil
        (KwList.cons (some ("keywords")) (Expr.econst (PyConst.pint 7)) KwList.nil)]
      = .ok (some defaultInfo)
    ∧ extractTree [Expr.ecall (Expr.ename "add_meme") ExprList.nil
        (KwList.cons (some ("default_texts")) (Expr.econst (PyConst.pint 7)) KwList.nil)]
      = .ok (some defaultInfo) :=
  C3_theorem.2.2.1 (Expr.econst (PyConst.pint 7)) [] fun es h => by cases h

/-- Claim C4: the rendered ordering sorts records by creation date
descending (`recGe`), records without a date being keyed at `datetime.min`
so they come last; the sort is a permutation and it is stable (records with
equal keys keep their input order). -/
theorem C4_theorem :
    (∀ l, List.Sorted recGe (sortModules l))
    ∧ (∀ l, (sortModules l).Perm l)
    ∧ (∀ (l : List (String × Info)) (k : PyDateTime),
        ((sortModules l).filter fun x => recKey x == k)
          = l.filter fun x => recKey x == k)
    ∧ sortModules [("u", ⟨[], .pnone, .pnone, [], none⟩),
        ("a", ⟨[], .pnone, .pnone, [], some ⟨2023, 6, 15, 0, 0, 0, 0⟩⟩),
        ("b", ⟨[], .pnone, .pnone, [], some ⟨2024, 1, 1, 0, 0, 0, 0⟩⟩)]
      = [("b", ⟨[], .pnone, .pnone, [], some ⟨2024, 1, 1, 0, 0, 0, 0⟩⟩),
         ("a", ⟨[], .pnone, .pnone, [], some ⟨2023, 6, 15, 0, 0, 0, 0⟩⟩),
         ("u", ⟨[], .pnone, .pnone, [], none⟩)] :=
  ⟨fun l => List.sorted_insertionSort recGe l,
   fun l => List.perm_insertionSort recGe l,
   sortModules_stable,
   by decide⟩

/-- Claim C5: the preview resolver returns `None` when the images directory
is missing or no entry has a recognized extension, and otherwise the
lexicographically least matching entry; non-matching entries are never
selected. -/
theorem C5_theorem :
    (∀ (sub : String) (entries : List String),
        find_first_image_path sub false entries = none)
    ∧ (∀ (sub : String) (b : Bool) (entries : List String),
        find_first_image_path sub b entries = none
          ↔ (b = false ∨ ∀ f ∈ entries, isImageFile f = false))
    ∧ (∀ (sub : String) (b : Bool) (entries : List String) (p : String),
        find_first_image_path sub b entries = some p →
          ∃ f, f ∈ entries ∧ isImageFile f = true
            ∧ (∀ g ∈ entries, isImageFile g = true → strLe f g)
            ∧ p = pyReplaceBackslash (joinPath (joinPath sub "images") f))
    ∧ find_first_image_path ("./memes/x") true ["b.png", "a.jpg", "note.txt"]
        = some ("./memes/x/images/a.jpg") :=
  ⟨fun _ _ => rfl,
   ffip_none_iff,
   fun sub b entries p h => (ffip_some_inv sub b entries p h).2,
   by decide⟩

/-- Witness for C5: on the spec's example directory the resolver picks
`a.jpg`, the lexicographically first matching entry. -/
theorem C5_witness :
    ∃ f, f ∈ ["b.png", "a.jpg", "note.txt"] ∧ isImageFile f = true
      ∧ (∀ g ∈ ["b.png", "a.jpg", "note.txt"], isImageFile g = true → strLe f g)
      ∧ "./memes/x/images/a.jpg"
          = pyReplaceBackslash (joinPath (joinPath ("./memes/x") "images") f) :=
  C5_theorem.2.2.1 ("./memes/x") true ["b.png", "a.jpg", "note.txt"]
    ("./memes/x/images/a.jpg") (by decide)

/-- Claim C6: the string embedded in the raw-content URL is the resolved
preview path (already normalized to forward slashes) with exactly its
leading `./` removed: prepending `./` to the embedded string restores the
path unchanged, so no other leading characters are stripped. -/
theorem C6_theorem :
    ∀ (folder : String) (isDir : Bool) (entries : List String) (p repo : String),
      find_first_image_path (joinPath memesDir folder) isDir entries = some p →
        ("./" ++ clean_path p = p
          ∧ rawURL repo p
              = "https://raw.githubusercontent.com/" ++ repo ++ "/master/"
                  ++ clean_path p) := by
  intro folder isDir entries p repo h
  obtain ⟨-, f, -, -, -, hp⟩ := ffip_some_inv _ _ _ _ h
  subst hp
  have hrw : joinPath (joinPath (joinPath memesDir folder) "images") f
      = "./memes/" ++ (folder ++ ("/images/" ++ f)) := by
    simp [joinPath, memesDir, String.append_assoc]
  rw [hrw]
  exact ⟨clean_path_memes _, rfl⟩

/-- Witness for C6: stripping the resolved path `./memes/x/images/a.jpg`
removes exactly the leading `./`. -/
theorem C6_witness :
    "./" ++ clean_path ("./memes/x/images/a.jpg") = "./memes/x/images/a.jpg"
    ∧ rawURL ("r") ("./memes/x/images/a.jpg")
        = "https://raw.githubusercontent.com/" ++ "r" ++ "/master/"
            ++ clean_path ("./memes/x/images/a.jpg") :=
  C6_theorem "x" true ["a.jpg"] ("./memes/x/images/a.jpg") ("r") (by decide)

/-- Claim C7: a parse failure yields `None` together with exactly one
diagnostic naming the module path and the error; the failure is contained:
the records produced for all other modules are unchanged. -/
theorem C7_theorem :
    (∀ (path msg : String),
        extract_meme_info path (.error msg) = (.ok none, [mkDiag path msg]))
    ∧ (∀ (path msg : String) (ys : List (String × Except String (List Expr))),
        processModules ((path, .error msg) :: ys)
          = (processModules ys).map fun rd => (rd.1, mkDiag path msg :: rd.2))
    ∧ (∀ (path msg : String) (xs ys : List (String × Except String (List Expr))),
        (processModules (xs ++ (path, .error msg) :: ys)).map Prod.fst
          = (processModules (xs ++ ys)).map Prod.fst) :=
  ⟨fun _ _ => rfl, processModules_cons_error, processModules_error_fst⟩

/-- Claim C8: on a parsed tree, extraction returns `None` exactly when no
registration call is present; the result is determined by the first
registration call found in the traversal (later ones are ignored); and a
registration call with no keyword arguments yields the all-defaults record. -/
theorem C8_theorem :
    (∀ t, extractTree t = .ok none ↔ treeHasReg t = false)
    ∧ (∀ (t : List Expr) (kws : KwList),
        (walk (t.map Node.nexpr)).findSome? isRegCall = some kws →
          extractTree t = (applyKws kws.toList).map some)
    ∧ (∀ (args : ExprList) (rest : List Expr),
        extractTree (Expr.ecall (Expr.ename "add_meme") args KwList.nil :: rest)
          = .ok (some defaultInfo))
    ∧ extractTree [Expr.ecall (Expr.ename "add_meme") ExprList.nil
          (KwList.cons (some ("min_images")) (Expr.econst (PyConst.pint 2)) KwList.nil),
        Expr.ecall (Expr.ename "add_meme") ExprList.nil
          (KwList.cons (some ("min_images")) (Expr.econst (PyConst.pint 7)) KwList.nil)]
        = .ok (some ⟨[], .pint 2, .pnone, [], none⟩) := by
  refine ⟨extractTree_none_iff, ?_, fun args rest => rfl, by decide⟩
  intro t kws h
  unfold extractTree
  rw [h]

/-- Witness for C8: the first-call characterization applied to a concrete
two-call tree. -/
theorem C8_witness :
    extractTree [Expr.ecall (Expr.ename "add_meme") ExprList.nil
          (KwList.cons (some ("min_images")) (Expr.econst (PyConst.pint 2)) KwList.nil),
        Expr.ecall (Expr.ename "add_meme") ExprList.nil
          (KwList.cons (some ("min_images")) (Expr.econst (PyConst.pint 7)) KwList.nil)]
      = (applyKws (KwList.cons (some ("min_images"))
          (Expr.econst (PyConst.pint 2)) KwList.nil).toList).map some :=
  C8_theorem.2.1 _ _ rfl

/-- Claim C9: a literal-constant `min_images`/`min_texts` argument is stored
as-is with no type or range checking, and a literal `None` leaves the field
identical to an undeclared one — both render as the `&nbsp;` placeholder. -/
theorem C9_theorem :
    (∀ (c : PyConst) (rest : List Expr),
        extractTree (Expr.ecall (Expr.ename "add_meme") ExprList.nil
            (KwList.cons (some ("min_images")) (Expr.econst c) KwList.nil) :: rest)
          = .ok (some ⟨[], c, .pnone, [], none⟩))
    ∧ (∀ (c : PyConst) (rest : List Expr),
        extractTree (Expr.ecall (Expr.ename "add_meme") ExprList.nil
            (KwList.cons (some ("min_texts")) (Expr.econst c) KwList.nil) :: rest)
          = .ok (some ⟨[], .pnone, c, [], none⟩))
    ∧ (∀ (rest : List Expr),
        extractTree (Expr.ecall (Expr.ename "add_meme") ExprList.nil
            (KwList.cons (some ("min_images")) (Expr.econst .pnone) KwList.nil) :: rest)
          = .ok (some defaultInfo))
    ∧ imageCountCell defaultInfo = "&nbsp;"
    ∧ textCountCell defaultInfo = "&nbsp;"
    ∧ (∀ i : Info, i.min_images = .pnone → imageCountCell i = "&nbsp;")
    ∧ (∀ i : Info, i.min_texts = .pnone → textCountCell i = "&nbsp;") := by
  refine ⟨fun c rest => rfl, fun c rest => rfl, fun rest => rfl, rfl, rfl, ?_, ?_⟩
  · intro i h
    unfold imageCountCell
    rw [h]
  · intro i h
    unfold textCountCell
    rw [h]

/-- Witness for C9: the all-defaults record renders the placeholder in the
image-count column. -/
theorem C9_witness : imageCountCell defaultInfo = "&nbsp;" :=
  C9_theorem.2.2.2.2.2.1 defaultInfo rfl

/-- Claim C10: a call is recognized as a registration call only when its
function is the bare identifier `add_meme`; a call through an attribute
access is never recognized, and a tree containing only such a call yields
no record. -/
theorem C10_theorem :
    (∀ (v : Expr) (a : String) (args : ExprList) (kws : KwList),
        isRegCall (Node.nexpr (Expr.ecall (Expr.eattr v a) args kws)) = none)
    ∧ (∀ (i : String) (args : ExprList) (kws : KwList), i ≠ "add_meme" →
        isRegCall (Node.nexpr (Expr.ecall (Expr.ename i) args kws)) = none)
    ∧ extractTree [Expr.ecall (Expr.eattr (Expr.ename "memes") "add_meme") ExprList.nil
        (KwList.cons (some ("keywords"))
          (Expr.elist (ExprList.cons (Expr.econst (PyConst.pstr "a")) ExprList.nil))
          KwList.nil)]
        = .ok none := by
  refine ⟨fun v a args kws => rfl, ?_, by decide⟩
  intro i args kws h
  show (if funcId (Expr.ename i) = "add_meme" then some kws else none) = none
  rw [if_neg ?_]
  show ¬ i = "add_meme"
  exact h

/-- Witness for C10: a call to the differently named `foo` is not
recognized. -/
theorem C10_witness :
    isRegCall (Node.nexpr (Expr.ecall (Expr.ename "foo") ExprList.nil KwList.nil))
      = none :=
  C10_theorem.2.1 "foo" ExprList.nil KwList.nil (by decide)

end Meme
